import Mathlib

/-
Verification of the OpenTTD multi-commodity-flow solver (src/linkgraph/mcf.cpp)
against its natural-language specification.  The definitions below are a
shallow embedding of the C++ code: unsigned 32-bit integers become Nat with
explicit reduction modulo 2^32 where wrap-around matters, signed ints become
Int, and the few Path helpers that live in mcf.h (not part of the sources)
are modelled from the specification and marked as such.
-/

/-- The C++ UINT_MAX constant (32-bit unsigned). -/
def UINT_MAX : Nat := 2 ^ 32 - 1

/-- The C++ INT_MIN constant (32-bit signed), used as the
free-capacity sentinel of unreachable paths. -/
def INT_MIN : Int := -(2 ^ 31)

/-- Unsigned 32-bit subtraction: a - b computed modulo 2^32,
for a, b already reduced below 2^32. -/
def uintSub32 (a b : Nat) : Nat := (a + (2 ^ 32 - b % 2 ^ 32)) % 2 ^ 32

/-- Reinterpret an unsigned 32-bit value as a signed int, as happens in C++
when the uint expression capacity - edge.Flow() is passed to an int
parameter. -/
def toInt32 (n : Nat) : Int :=
  if n % 2 ^ 32 < 2 ^ 31 then (n % 2 ^ 32 : Int) else (n % 2 ^ 32 : Int) - 2 ^ 32

/-! Section: Distance annotation (mcf.cpp, DistanceAnnotation::IsBetter) -/

/-- The fields of a DistanceAnnotation that IsBetter reads: the accumulated
distance (a uint, UINT_MAX meaning disconnected) and the free capacity
(an int, INT_MIN meaning no edge yet). -/
structure DistAnno where
  distance : Nat
  free_capacity : Int
deriving DecidableEq

/-- DistanceAnnotation::IsBetter from mcf.cpp: decides whether extending
base by an edge of the given capacity, free capacity and distance beats
the path currently recorded in this annotation.  The uint addition
base.distance + dist is taken modulo 2^32 as in C++. -/
def distIsBetter (this base : DistAnno) (cap : Nat) (free_cap : Int) (dist : Nat) : Bool :=
  if base.distance = UINT_MAX then
    false
  else if this.distance = UINT_MAX then
    true
  else if 0 < free_cap ∧ 0 < base.free_capacity then
    if 0 < this.free_capacity then decide ((base.distance + dist) % 2 ^ 32 < this.distance)
    else true
  else
    if 0 < this.free_capacity then false
    else decide ((base.distance + dist) % 2 ^ 32 < this.distance)

/-- The four-case rule for the distance annotation exactly as the
specification states it (spec section 4.2), with mathematical addition. -/
def distIsBetterSpec (this base : DistAnno) (free_cap : Int) (dist : Nat) : Bool :=
  if base.distance = UINT_MAX then
    false
  else if this.distance = UINT_MAX then
    true
  else if 0 < free_cap ∧ 0 < base.free_capacity then
    if 0 < this.free_capacity then decide (base.distance + dist < this.distance)
    else true
  else
    if 0 < this.free_capacity then false
    else decide (base.distance + dist < this.distance)

/-! Section: Capacity annotation (mcf.cpp, CapacityAnnotation::IsBetter) -/

/-- The fields of a CapacityAnnotation that IsBetter reads. -/
structure CapAnno where
  distance : Nat
  capacity : Nat
  free_capacity : Int
deriving DecidableEq

/-- Value of a capacity ratio: the spec extends the fixed-point ratio with
positive and negative infinity for zero-capacity paths. -/
inductive CapRatio where
  | negInf
  | fin (r : Int)
  | posInf
deriving DecidableEq

/-- Strict order on capacity ratios. -/
def CapRatio.lt : CapRatio → CapRatio → Bool
  | CapRatio.negInf, CapRatio.negInf => false
  | CapRatio.negInf, _ => true
  | CapRatio.fin _, CapRatio.negInf => false
  | CapRatio.fin a, CapRatio.fin b => decide (a < b)
  | CapRatio.fin _, CapRatio.posInf => true
  | CapRatio.posInf, _ => false

/-- Modelled from the spec: Path::GetCapacityRatio lives in mcf.h, which is
not among the sources.  Spec section 4.2: capacity_ratio(free, total) is
plus infinity when total = 0 and free > 0, minus infinity when total = 0
and free is not positive, and otherwise the fixed-point ratio
free * 16 / total (C++ int division, truncating toward zero). -/
def capacityRatio (free : Int) (total : Nat) : CapRatio :=
  if total = 0 then
    if 0 < free then CapRatio.posInf else CapRatio.negInf
  else
    CapRatio.fin (Int.tdiv (free * 16) total)

/-- CapacityAnnotation::IsBetter from mcf.cpp: compares the bottleneck
capacity ratio of base extended by the new edge with this annotation's
own ratio; on equal ratios it falls back to the distance comparison. -/
def capIsBetter (this base : CapAnno) (cap : Nat) (free_cap : Int) (dist : Nat) : Bool :=
  let min_cap := capacityRatio (min base.free_capacity free_cap) (min base.capacity cap)
  let this_cap := capacityRatio this.free_capacity this.capacity
  if min_cap = this_cap then
    if base.distance = UINT_MAX then false
    else decide ((base.distance + dist) % 2 ^ 32 < this.distance)
  else
    CapRatio.lt this_cap min_cap

/-- The capacity-annotation rule exactly as the specification states it
(spec section 4.2): better iff min_cap_ratio is larger than this ratio, or
the ratios are equal, base is connected and base.distance + dist is
smaller than this distance. -/
def capIsBetterSpec (this base : CapAnno) (cap : Nat) (free_cap : Int) (dist : Nat) : Bool :=
  let min_cap := capacityRatio (min base.free_capacity free_cap) (min base.capacity cap)
  let this_cap := capacityRatio this.free_capacity this.capacity
  CapRatio.lt this_cap min_cap ||
    (decide (min_cap = this_cap) && decide (base.distance < UINT_MAX) &&
      decide (base.distance + dist < this.distance))

/-! Section: Frontier comparators (mcf.cpp, Greater and the two Comparator types) -/

/-- The templated Greater relation from mcf.cpp: larger annotation first,
ties broken by larger node ID. -/
def Greater {T : Type} [LinearOrder T] (x_anno y_anno : T) (x y : Nat) : Bool :=
  if x_anno > y_anno then true
  else if x_anno < y_anno then false
  else decide (x > y)

/-- A capacity-annotation object in the frontier set: oid models the object
address (the C++ comparator first compares pointers), anno the value of
GetAnnotation() (an int: the capacity ratio), node the node ID. -/
structure CapObj where
  oid : Nat
  anno : Int
  node : Nat
deriving DecidableEq

/-- CapacityAnnotation::Comparator::operator() from mcf.cpp. -/
def capComparator (x y : CapObj) : Bool :=
  decide (x ≠ y) && Greater x.anno y.anno x.node y.node

/-- A distance-annotation object in the frontier set; anno is the value of
GetAnnotation() (a uint: the distance). -/
structure DistObj where
  oid : Nat
  anno : Nat
  node : Nat
deriving DecidableEq

/-- DistanceAnnotation::Comparator::operator() from mcf.cpp: smallest
distance first, so it negates Greater. -/
def distComparator (x y : DistObj) : Bool :=
  decide (x ≠ y) && !(Greater x.anno y.anno x.node y.node)

/-! Section: Effective capacity scaling (mcf.cpp, MultiCommodityFlow::Dijkstra) -/

/-- The effective-capacity computation of Dijkstra in mcf.cpp: when
max_saturation is not UINT_MAX, the capacity is multiplied by
max_saturation in 32-bit unsigned arithmetic (wrapping modulo 2^32),
divided by 100, and raised to 1 when it became 0. -/
def effectiveCapacity (max_saturation : Nat) (cap : Nat) : Nat :=
  if max_saturation = UINT_MAX then cap
  else
    let c := cap * max_saturation % 2 ^ 32
    let c := c / 100
    if c = 0 then 1 else c

/-! Section: Flow pushing (mcf.cpp, MultiCommodityFlow::PushFlow) -/

/-- The demand bookkeeping of an origin-destination edge: its total demand
and the part of it not yet assigned to any path. -/
structure DemandEdge where
  demand : Nat
  unsat : Nat
deriving DecidableEq

/-- A graph edge along a path, as read by Path::AddFlow: its raw capacity
and its current flow. -/
structure GEdge where
  capacity : Nat
  flow : Nat
deriving DecidableEq

/-- A path as PushFlow sees it: the list of graph edges from the root to
this node (walked by Path::AddFlow) together with the free_capacity value
stored in the annotation by the preceding Dijkstra run (returned by
Path::GetFreeCapacity; it can be stale with respect to the edges). -/
structure MPath where
  edges : List GEdge
  free_capacity : Int
deriving DecidableEq

/-- Modelled from the spec: Clamp lives in core/math_func.hpp, which is not
among the sources.  Spec section 4.5 writes clamp(x, lo, hi). -/
def clamp (x lo hi : Nat) : Nat := max lo (min x hi)

/-- Modelled from the spec: the saturation cap of an edge used by
Path::AddFlow (mcf.h, not among the sources).  Spec section 4.1:
saturation_cap(e) = capacity(e) when max_saturation = infinity (modelled
as none), else max(1, capacity(e) * max_saturation / 100). -/
def satCap (max_saturation : Option Nat) (cap : Nat) : Nat :=
  match max_saturation with
  | none => cap
  | some s => max 1 (cap * s / 100)

/-- Modelled from the spec: the amount Path::AddFlow actually pushes
(mcf.h, not among the sources).  Spec section 4.1: the result is
min(want, min over the path edges of max(0, saturation_cap(e) - flow(e)));
when max_saturation is infinity the residual is unbounded above, so the
whole requested amount is pushed. -/
def addFlowAmount (max_saturation : Option Nat) (want : Nat) (edges : List GEdge) : Nat :=
  match max_saturation with
  | none => want
  | some s =>
      edges.foldr
        (fun e acc => min (max 0 ((satCap (some s) e.capacity : Int) - e.flow)).toNat acc)
        want

/-- MultiCommodityFlow::PushFlow from mcf.cpp: computes the clamped target
amount, lets Path::AddFlow push what fits, records the pushed flow on the
path edges and subtracts it from the unsatisfied demand.  Returns the
pushed amount together with the updated edge and path. -/
def PushFlow (accuracy : Nat) (max_saturation : Option Nat) (e : DemandEdge) (p : MPath) :
    Nat × DemandEdge × MPath :=
  let want := clamp (e.demand / accuracy) 1 e.unsat
  let f := addFlowAmount max_saturation want p.edges
  (f, { e with unsat := e.unsat - f },
    { p with edges := p.edges.map (fun g => { g with flow := g.flow + f }) })

/-! Section: Pass-1 inner loop body (mcf.cpp, MCF1stPass::MCF1stPass, lines 464-481) -/

/-- Result of one destination step of the pass-1 loop. -/
structure Pass1Result where
  edge : DemandEdge
  path : MPath
  more_loops : Bool
  did_normal : Bool
  did_overload : Bool
deriving DecidableEq

/-- The body of the pass-1 per-destination loop from MCF1stPass::MCF1stPass:
when the edge still has unsatisfied demand, a path with positive stored
free capacity receives a saturation-capped push; if that push moved
nothing, or the free capacity was not positive, the one-shot overloaded
push (max_saturation = infinity, modelled as none) runs provided no flow
has been assigned for this pair yet and the path is not at the INT_MIN
sentinel.  The did_normal and did_overload fields record which pushes
were performed. -/
def pass1Inner (accuracy : Nat) (max_saturation : Option Nat) (e : DemandEdge) (p : MPath)
    (more_loops : Bool) : Pass1Result :=
  if 0 < e.unsat then
    if 0 < p.free_capacity then
      let r := PushFlow accuracy max_saturation e p
      if 0 < r.1 then
        ⟨r.2.1, r.2.2, more_loops || decide (0 < r.2.1.unsat), true, false⟩
      else
        if r.2.1.unsat = r.2.1.demand ∧ INT_MIN < r.2.2.free_capacity then
          let r2 := PushFlow accuracy none r.2.1 r.2.2
          ⟨r2.2.1, r2.2.2, more_loops, true, true⟩
        else
          ⟨r.2.1, r.2.2, more_loops, true, false⟩
    else
      if e.unsat = e.demand ∧ INT_MIN < p.free_capacity then
        let r2 := PushFlow accuracy none e p
        ⟨r2.2.1, r2.2.2, more_loops, false, true⟩
      else
        ⟨e, p, more_loops, false, false⟩
  else
    ⟨e, p, more_loops, false, false⟩

/-! Section: Dijkstra relaxation step (mcf.cpp, MultiCommodityFlow::Dijkstra) -/

/-- The annotation operations the Dijkstra template is instantiated with:
isBetter dest source cap free dist mirrors dest->IsBetter(source, cap,
free, dist) and fork mirrors dest->Fork(source, cap, free, dist). -/
structure RelaxOps (A : Type) where
  isBetter : A → A → Nat → Int → Nat → Bool
  fork : A → A → Nat → Int → Nat → A

/-- The distance and capacity fields of a graph edge as Dijkstra reads
them. -/
structure DijkEdge where
  distance : Nat
  capacity : Nat
  flow : Nat
deriving DecidableEq

/-- One iteration of the inner relaxation loop of
MultiCommodityFlow::Dijkstra, handling a single node ID yielded by the
edge iterator: self-edges are skipped; otherwise the effective capacity,
the free capacity (a uint difference reinterpreted as int) and the
distance with the per-hop penalty are computed, and when the target
annotation reports IsBetter it is erased from the frontier, re-parented
with Fork and re-inserted. -/
def relaxStep {A : Type} (ops : RelaxOps A) (max_saturation : Nat) (edge : DijkEdge)
    (fromN toN : Nat) (paths : Nat → A) (annos : Finset Nat) : (Nat → A) × Finset Nat :=
  if toN = fromN then (paths, annos)
  else
    let capacity := effectiveCapacity max_saturation edge.capacity
    let free : Int := toInt32 (uintSub32 capacity edge.flow)
    let distance := edge.distance + 1
    if ops.isBetter (paths toN) (paths fromN) capacity free distance then
      (fun n => if n = toN then ops.fork (paths toN) (paths fromN) capacity free distance
        else paths n,
        insert toN (annos.erase toN))
    else
      (paths, annos)

/-! Section: Cycle flow and cycle elimination (mcf.cpp, MCF1stPass::FindCycleFlow,
MCF1stPass::EliminateCycle and the cycle branch of EliminateCycles)

During the back-walk the path vector is fixed, so the walk only reads it
through the composite function mapping a slot s to path[s]->GetNode(),
modelled below as next, and through path[s]->GetFlow(), modelled as the
pathFlow field of the state.  Slots on a detected cycle hold pairwise
distinct path objects, so the object-identity stop condition of the C++
do-while loop is the return to the starting slot; the walk length len is
the first-return time of next on the start slot. -/

/-- The slots visited by k steps of the chain s, next s, next (next s), ... -/
def window (next : Nat → Nat) : Nat → Nat → List Nat
  | 0, _ => []
  | k + 1, cur => cur :: window next k (next cur)

/-- State mutated by EliminateCycle: per-slot path flows and per-edge
flows. -/
structure CycleState where
  pathFlow : Nat → Nat
  edgeFlow : Nat → Nat → Nat

/-- The do-while loop of MCF1stPass::FindCycleFlow, with the walk length
made explicit: flow = min(flow, cycle_begin->GetFlow()), then advance. -/
def findCycleFlowGo (getFlow next : Nat → Nat) : Nat → Nat → Nat → Nat
  | 0, _, acc => acc
  | k + 1, cur, acc => findCycleFlowGo getFlow next k (next cur) (min acc (getFlow cur))

/-- MCF1stPass::FindCycleFlow from mcf.cpp: the minimum flow along the
cycle starting at the given slot, beginning from UINT_MAX. -/
def FindCycleFlow (getFlow next : Nat → Nat) (start len : Nat) : Nat :=
  findCycleFlowGo getFlow next len start UINT_MAX

/-- The do-while loop of MCF1stPass::EliminateCycle: remember prev =
cycle_begin->GetNode(), call ReduceFlow on the current path, advance to
path[prev], and remove the flow from the edge from prev to the new
path's node. -/
def eliminateCycleGo (next : Nat → Nat) (f : Nat) : Nat → Nat → CycleState → CycleState
  | 0, _, st => st
  | k + 1, cur, st =>
      let st1 : CycleState :=
        ⟨fun s => if s = cur then st.pathFlow s - f else st.pathFlow s, st.edgeFlow⟩
      let st2 : CycleState :=
        ⟨st1.pathFlow, fun a b =>
          if a = next cur ∧ b = next (next cur) then st1.edgeFlow a b - f
          else st1.edgeFlow a b⟩
      eliminateCycleGo next f k (next cur) st2

/-- MCF1stPass::EliminateCycle from mcf.cpp. -/
def EliminateCycle (next : Nat → Nat) (start len : Nat) (f : Nat) (st : CycleState) :
    CycleState :=
  eliminateCycleGo next f len start st

/-- The cycle branch of MCF1stPass::EliminateCycles (mcf.cpp lines
417-425): compute the cycle flow; only when it is positive eliminate the
cycle and report true. -/
def cycleStep (next : Nat → Nat) (start len : Nat) (st : CycleState) : Bool × CycleState :=
  let flow := FindCycleFlow st.pathFlow next start len
  if 0 < flow then (true, EliminateCycle next start len flow st)
  else (false, st)

/-! Section: Recursive cycle search (mcf.cpp, MCF1stPass::EliminateCycles) -/

/-- Visit state of a slot of the path vector in EliminateCycles: NULL
(unvisited), a path object currently being followed (in-progress), or the
invalid_path sentinel (resolved). -/
inductive Slot where
  | unvisited
  | entry (fid : Nat)
  | resolved
deriving DecidableEq

/-- The immutable part of the job as EliminateCycles reads it: per path
fragment its origin and its node (next hop), and per node the list of
path fragments attached to it. -/
structure FragEnv where
  origin : Nat → Nat
  node : Nat → Nat
  nodePaths : Nat → List Nat

/-- The mutable state of EliminateCycles: the path vector, per-fragment
flows and per-edge flows. -/
structure CEState where
  slot : Nat → Slot
  flow : Nat → Nat
  edgeFlow : Nat → Nat → Nat

/-- Association-list lookup for the PathViaMap of next hops. -/
def lookupHop (key : Nat) : List (Nat × Nat) → Option Nat
  | [] => none
  | (k, v) :: rest => if k = key then some v else lookupHop key rest

/-- Key-ordered insertion into the PathViaMap, mirroring the iteration
order of std::map. -/
def insertHop (key v : Nat) : List (Nat × Nat) → List (Nat × Nat)
  | [] => [(key, v)]
  | (k, w) :: rest =>
      if key < k then (key, v) :: (k, w) :: rest else (k, w) :: insertHop key v rest

/-- The path-summarising loop of MCF1stPass::EliminateCycles: fragments
with the searched origin are grouped by their node (next hop); the first
fragment of a group becomes the map entry, later ones have their flow
added to that representative (Path::AddFlow of one argument, modelled
from the spec: flows summed on the representative) and are then zeroed
with ReduceFlow. -/
def mergeGo (env : FragEnv) (origin : Nat) :
    List Nat → CEState → List (Nat × Nat) → CEState × List (Nat × Nat)
  | [], st, hops => (st, hops)
  | fid :: rest, st, hops =>
      if env.origin fid = origin then
        match lookupHop (env.node fid) hops with
        | none => mergeGo env origin rest st (insertHop (env.node fid) fid hops)
        | some rep =>
            mergeGo env origin rest
              { st with flow := fun g =>
                  if g = fid then
                    (if g = rep then st.flow g + st.flow fid else st.flow g) - st.flow fid
                  else if g = rep then st.flow g + st.flow fid else st.flow g }
              hops
      else mergeGo env origin rest st hops

/-- Merge the parallel path fragments of one node, starting from an empty
next-hop map. -/
def mergeFrags (env : FragEnv) (origin : Nat) (frags : List Nat) (st : CEState) :
    CEState × List (Nat × Nat) :=
  mergeGo env origin frags st []

/-- The back-walk of FindCycleFlow expressed on the EliminateCycles state:
the chain follows the entry stored in the slot of the current fragment's
node, and stops when it returns to the fragment the walk started at. -/
def findCycleFlowState (env : FragEnv) (st : CEState) (endFid : Nat) :
    Nat → Nat → Nat → Nat
  | 0, _, acc => acc
  | k + 1, cur, acc =>
      let acc2 := min acc (st.flow cur)
      match st.slot (env.node cur) with
      | Slot.entry nxt => if nxt = endFid then acc2 else findCycleFlowState env st endFid k nxt acc2
      | _ => acc2

/-- The walk of EliminateCycle expressed on the EliminateCycles state. -/
def eliminateCycleState (env : FragEnv) (f : Nat) (endFid : Nat) :
    Nat → Nat → CEState → CEState
  | 0, _, st => st
  | k + 1, cur, st =>
      let prev := env.node cur
      let st1 : CEState :=
        { st with flow := fun g => if g = cur then st.flow g - f else st.flow g }
      match st1.slot (env.node cur) with
      | Slot.entry nxt =>
          let st2 : CEState :=
            { st1 with edgeFlow := fun a b =>
                if a = prev ∧ b = env.node nxt then st1.edgeFlow a b - f
                else st1.edgeFlow a b }
          if nxt = endFid then st2 else eliminateCycleState env f endFid k nxt st2
      | _ => st1

/-- One step of the loop over the merged next hops in
MCF1stPass::EliminateCycles: a child that still carries positive flow is
stored in the path vector slot of the current node (in-progress marker)
and the search recurses into its node; a child without flow is skipped. -/
def childStep (env : FragEnv) (rec : CEState → Nat → Bool × CEState) (nid : Nat)
    (acc : Bool × CEState) (kc : Nat × Nat) : Bool × CEState :=
  if 0 < acc.2.flow kc.2 then
    let st' : CEState :=
      { acc.2 with slot := fun s => if s = nid then Slot.entry kc.2 else acc.2.slot s }
    let r2 := rec st' (env.node kc.2)
    (r2.1 || acc.1, r2.2)
  else acc

/-- MCF1stPass::EliminateCycles (the recursive overload) from mcf.cpp,
with a fuel parameter standing for the recursion depth available: a
resolved slot returns immediately with no cycle; an unvisited slot merges
its fragments, recurses into every merged child with positive flow, and
finally marks itself resolved exactly when no cycle was found (otherwise
it is left unvisited); an in-progress slot means a cycle was closed, and
the cycle is eliminated and reported only when its flow is positive. -/
def elimCyclesRec (env : FragEnv) (origin : Nat) : Nat → CEState → Nat → Bool × CEState
  | 0, st, _ => (false, st)
  | fuel + 1, st, next_id =>
      match st.slot next_id with
      | Slot.resolved => (false, st)
      | Slot.unvisited =>
          let m := mergeFrags env origin (env.nodePaths next_id) st
          let r := m.2.foldl
            (childStep env (fun st2 n => elimCyclesRec env origin fuel st2 n) next_id)
            (false, m.1)
          let mark := if r.1 then Slot.unvisited else Slot.resolved
          (r.1, { r.2 with slot := fun s => if s = next_id then mark else r.2.slot s })
      | Slot.entry fid =>
          let flow := findCycleFlowState env st fid fuel fid UINT_MAX
          if 0 < flow then (true, eliminateCycleState env flow fid fuel fid st)
          else (false, st)

/-! Section: Pass-2 driver (mcf.cpp, MCF2ndPass::MCF2ndPass) -/

/-- The state the pass-2 driver loop reads and writes: the node count and
accuracy (fixed), the per-pair demand (never written by the solver) and
the per-pair unsatisfied demand. -/
structure Pass2State where
  n : Nat
  accuracy : Nat
  demand : Nat → Nat → Nat
  unsat : Nat → Nat → Nat

/-- Total unsatisfied demand over all origin-destination pairs, the
termination measure of pass 2. -/
def totalUnsat (st : Pass2State) : Nat :=
  (Finset.range st.n).sum fun s => (Finset.range st.n).sum fun d => st.unsat s d

/-- The per-destination body of the pass-2 loop: when the edge has
unsatisfied demand and the path is above the INT_MIN sentinel, PushFlow
runs with max_saturation = infinity (none); demand_left is raised when
unsatisfied demand remains afterwards. -/
def pass2DestStep (accuracy : Nat) (fc : Int) (e : DemandEdge) (dl : Bool) :
    DemandEdge × Bool :=
  if 0 < e.unsat ∧ INT_MIN < fc then
    let r := PushFlow accuracy none e ⟨[], fc⟩
    (r.2.1, dl || decide (0 < r.2.1.unsat))
  else (e, dl)

/-- The fold body of the per-destination loop of pass 2: run the
destination step on the live edge state and write the new unsatisfied
demand back into the (source, dest) cell. -/
def pass2DestBody (source : Nat) (fc : Nat → Int) (acc2 : Pass2State × Bool)
    (dest : Nat) : Pass2State × Bool :=
  let st := acc2.1
  let r := pass2DestStep st.accuracy (fc dest)
    ⟨st.demand source dest, st.unsat source dest⟩ acc2.2
  ({ st with unsat := fun s d =>
      if s = source ∧ d = dest then r.1.unsat else st.unsat s d }, r.2)

/-- One source iteration of the pass-2 sweep: the Dijkstra run is
abstracted by the oracle giving the stored free capacity of the best path
to each destination as a function of the state at the start of the source
iteration; then every destination is processed in ascending order. -/
def pass2Source (oracle : Pass2State → Nat → Nat → Int) (acc : Pass2State × Bool)
    (source : Nat) : Pass2State × Bool :=
  (List.range acc.1.n).foldl (pass2DestBody source (oracle acc.1 source)) acc

/-- One full sweep of the pass-2 driver over all sources, starting with
demand_left = false. -/
def pass2Sweep (oracle : Pass2State → Nat → Nat → Int) (st : Pass2State) :
    Pass2State × Bool :=
  (List.range st.n).foldl (pass2Source oracle) (st, false)

/-- The while (demand_left) loop of MCF2ndPass::MCF2ndPass, with fuel:
none is returned only when the fuel runs out before the loop exits. -/
def pass2Go (oracle : Pass2State → Nat → Nat → Int) : Nat → Pass2State → Option Pass2State
  | 0, _ => none
  | fuel + 1, st =>
      let r := pass2Sweep oracle st
      if r.2 then pass2Go oracle fuel r.1 else some r.1

/-- The fragments of one node that EliminateCycles groups together: those
with the searched origin and the given next-hop node. -/
def fragGroup (env : FragEnv) (origin k : Nat) (frags : List Nat) : List Nat :=
  frags.filter (fun g => decide (env.origin g = origin) && decide (env.node g = k))

/-- Invariant of the path-summarising loop of EliminateCycles, relating the
state st and next-hop map hops after processing the fragment list p to the
state st0 before the loop: keys are unique; every map entry is a fragment
of the processed part with matching origin, keyed by its next hop, and
carries the summed flow of its whole group; processed fragments of the
origin that are not map entries have been zeroed; all other flows, all
slots and all edge flows are untouched; and every processed fragment of
the origin has a representative in the map. -/
def MergeInv (env : FragEnv) (origin : Nat) (st0 : CEState) (p : List Nat)
    (st : CEState) (hops : List (Nat × Nat)) : Prop :=
  (∀ k r1 r2, (k, r1) ∈ hops → (k, r2) ∈ hops → r1 = r2) ∧
  (∀ k rep, (k, rep) ∈ hops →
    env.origin rep = origin ∧ env.node rep = k ∧ rep ∈ p ∧
    st.flow rep = ((fragGroup env origin k p).map st0.flow).sum) ∧
  (∀ g ∈ p, env.origin g = origin → (env.node g, g) ∉ hops → st.flow g = 0) ∧
  (∀ g, (g ∉ p ∨ env.origin g ≠ origin) → st.flow g = st0.flow g) ∧
  (∀ g ∈ p, env.origin g = origin → ∃ rep, (env.node g, rep) ∈ hops) ∧
  (∀ s, st.slot s = st0.slot s) ∧
  (∀ a b, st.edgeFlow a b = st0.edgeFlow a b)

/-! Section: Theorems -/

theorem capRatio_lt_irrefl (x : CapRatio) : CapRatio.lt x x = false := by
  cases x <;> simp [CapRatio.lt]

/-- C2: DistanceAnnotation::IsBetter computes exactly the four-case rule of
the specification: false when base is disconnected; else true when this
annotation is disconnected; else, when the new edge and base both have
free capacity, the distance comparison when this path also has free
capacity and true otherwise; in the remaining case false when this path
has free capacity and the distance comparison otherwise. -/
theorem c2_distIsBetter_spec (this base : DistAnno) (cap : Nat) (free_cap : Int)
    (dist : Nat) (hov : base.distance + dist < 2 ^ 32) :
    distIsBetter this base cap free_cap dist = distIsBetterSpec this base free_cap dist := by
  unfold distIsBetter distIsBetterSpec
  rw [Nat.mod_eq_of_lt hov]

theorem c2_witness :
    (3 + 5 < 2 ^ 32) ∧
    distIsBetter ⟨10, 1⟩ ⟨3, 2⟩ 7 4 5 = distIsBetterSpec ⟨10, 1⟩ ⟨3, 2⟩ 4 5 :=
  ⟨by decide, c2_distIsBetter_spec ⟨10, 1⟩ ⟨3, 2⟩ 7 4 5 (by decide)⟩

/-- C3: CapacityAnnotation::IsBetter returns true exactly when the
bottleneck ratio of base extended by the new edge exceeds this path's
capacity ratio, or the two ratios are equal, base is connected and
base.distance + dist is smaller than this path's distance. -/
theorem c3_capIsBetter_spec (this base : CapAnno) (cap : Nat) (free_cap : Int)
    (dist : Nat) (hb : base.distance < 2 ^ 32) (hov : base.distance + dist < 2 ^ 32) :
    capIsBetter this base cap free_cap dist = capIsBetterSpec this base cap free_cap dist := by
  unfold capIsBetter capIsBetterSpec
  dsimp only
  rw [Nat.mod_eq_of_lt hov]
  by_cases h : capacityRatio (min base.free_capacity free_cap) (min base.capacity cap) =
      capacityRatio this.free_capacity this.capacity
  · rw [if_pos h, h, capRatio_lt_irrefl]
    by_cases hbd : base.distance = UINT_MAX
    · have hnl : ¬ base.distance < UINT_MAX := by omega
      simp [hbd, hnl]
    · have hlt : base.distance < UINT_MAX := by
        simp only [UINT_MAX] at hbd ⊢; omega
      simp [hbd, hlt]
  · rw [if_neg h]
    have hd : decide (capacityRatio (min base.free_capacity free_cap) (min base.capacity cap) =
        capacityRatio this.free_capacity this.capacity) = false := by
      simpa using h
    simp [hd]

theorem c3_witness :
    (4 < 2 ^ 32) ∧ (4 + 6 < 2 ^ 32) ∧
    capIsBetter ⟨20, 8, 3⟩ ⟨4, 10, 5⟩ 6 2 6 = capIsBetterSpec ⟨20, 8, 3⟩ ⟨4, 10, 5⟩ 6 2 6 :=
  ⟨by decide, by decide, c3_capIsBetter_spec ⟨20, 8, 3⟩ ⟨4, 10, 5⟩ 6 2 6 (by decide) (by decide)⟩

/-- C10: the effective-capacity scaling of Dijkstra runs in 32-bit
unsigned arithmetic; without overflow it equals max(1, capacity *
max_saturation / 100), but when the product reaches 2^32 it wraps and the
effective capacity can be far smaller than the mathematically scaled
value. -/
theorem c10_effectiveCapacity (cap sat : Nat) (hs : sat ≠ UINT_MAX)
    (hov : cap * sat < 2 ^ 32) :
    effectiveCapacity sat cap = max 1 (cap * sat / 100) ∧
    ∃ c s, s ≠ UINT_MAX ∧ 2 ^ 32 ≤ c * s ∧
      effectiveCapacity s c < max 1 (c * s / 100) := by
  constructor
  · unfold effectiveCapacity
    rw [if_neg hs, Nat.mod_eq_of_lt hov]
    rcases Nat.eq_zero_or_pos (cap * sat / 100) with h | h
    · simp [h]
    · have hne : ¬ cap * sat / 100 = 0 := by omega
      simp only [hne, if_false]
      omega
  · refine ⟨2 ^ 31, 2, by decide, by norm_num, ?_⟩
    norm_num [effectiveCapacity, UINT_MAX]

theorem c10_witness :
    (80 ≠ UINT_MAX) ∧ (1000 * 80 < 2 ^ 32) ∧
    (effectiveCapacity 80 1000 = max 1 (1000 * 80 / 100) ∧
      ∃ c s, s ≠ UINT_MAX ∧ 2 ^ 32 ≤ c * s ∧
        effectiveCapacity s c < max 1 (c * s / 100)) :=
  ⟨by decide, by decide, c10_effectiveCapacity 1000 80 (by decide) (by decide)⟩

theorem greater_asymm {T : Type} [LinearOrder T] (xa ya : T) (x y : Nat) (h : x ≠ y) :
    Greater xa ya x y = !(Greater ya xa y x) := by
  unfold Greater
  rcases lt_trichotomy xa ya with hc | hc | hc
  · have h1 : ¬ xa > ya := not_lt_of_lt hc
    have h2 : ya > xa := hc
    simp [h1, hc, h2]
  · have h1 : ¬ xa > ya := by simp [hc]
    have h2 : ¬ xa < ya := by simp [hc]
    have h3 : ¬ ya > xa := by simp [hc]
    have h4 : ¬ ya < xa := by simp [hc]
    simp only [h1, h2, h3, h4, if_false]
    rcases Nat.lt_or_ge x y with hn | hn
    · have : ¬ x > y := by omega
      have : y > x := hn
      simp_all
    · have hxy : x > y := by omega
      have : ¬ y > x := by omega
      simp_all
  · have h2 : xa > ya := hc
    have h3 : ¬ ya > xa := not_lt_of_lt hc
    simp [h2, h3, hc, not_lt_of_lt hc]

/-- C5: both frontier comparators are strict: an object never compares
before itself, and for objects with distinct node IDs exactly one
direction holds; on equal annotation values the distance comparator puts
the smaller node ID first while the capacity comparator puts the larger
node ID first. -/
theorem c5_comparator_strict :
    (∀ x : DistObj, distComparator x x = false) ∧
    (∀ x y : DistObj, x.node ≠ y.node →
      (distComparator x y = !distComparator y x) ∧
      (x.anno = y.anno → (distComparator x y = true ↔ x.node < y.node))) ∧
    (∀ x : CapObj, capComparator x x = false) ∧
    (∀ x y : CapObj, x.node ≠ y.node →
      (capComparator x y = !capComparator y x) ∧
      (x.anno = y.anno → (capComparator x y = true ↔ y.node < x.node))) := by
  refine ⟨fun x => by simp [distComparator], fun x y hn => ⟨?_, ?_⟩,
    fun x => by simp [capComparator], fun x y hn => ⟨?_, ?_⟩⟩
  · have hxy : x ≠ y := fun hc => hn (by rw [hc])
    have hyx : y ≠ x := fun hc => hn (by rw [hc])
    simp [distComparator, hxy, hyx, greater_asymm x.anno y.anno x.node y.node hn]
  · intro ha
    have hxy : x ≠ y := fun hc => hn (by rw [hc])
    simp [distComparator, hxy, Greater, ha]
    omega
  · have hxy : x ≠ y := fun hc => hn (by rw [hc])
    have hyx : y ≠ x := fun hc => hn (by rw [hc])
    simp [capComparator, hxy, hyx, greater_asymm x.anno y.anno x.node y.node hn]
  · intro ha
    have hxy : x ≠ y := fun hc => hn (by rw [hc])
    simp [capComparator, hxy, Greater, ha]

theorem c5_witness :
    distComparator ⟨0, 4, 1⟩ ⟨1, 4, 2⟩ = !distComparator ⟨1, 4, 2⟩ ⟨0, 4, 1⟩ ∧
    (distComparator ⟨0, 4, 1⟩ ⟨1, 4, 2⟩ = true ↔
      (⟨0, 4, 1⟩ : DistObj).node < (⟨1, 4, 2⟩ : DistObj).node) ∧
    capComparator ⟨0, 7, 3⟩ ⟨1, 7, 5⟩ = !capComparator ⟨1, 7, 5⟩ ⟨0, 7, 3⟩ ∧
    (capComparator ⟨0, 7, 3⟩ ⟨1, 7, 5⟩ = true ↔
      (⟨1, 7, 5⟩ : CapObj).node < (⟨0, 7, 3⟩ : CapObj).node) :=
  ⟨(c5_comparator_strict.2.1 ⟨0, 4, 1⟩ ⟨1, 4, 2⟩ (by decide)).1,
    (c5_comparator_strict.2.1 ⟨0, 4, 1⟩ ⟨1, 4, 2⟩ (by decide)).2 rfl,
    (c5_comparator_strict.2.2.2 ⟨0, 7, 3⟩ ⟨1, 7, 5⟩ (by decide)).1,
    (c5_comparator_strict.2.2.2 ⟨0, 7, 3⟩ ⟨1, 7, 5⟩ (by decide)).2 rfl⟩

theorem addFlowAmount_le (ms : Option Nat) (want : Nat) (edges : List GEdge) :
    addFlowAmount ms want edges ≤ want := by
  cases ms with
  | none => exact le_refl want
  | some s =>
      induction edges with
      | nil => exact le_refl want
      | cons e rest ih =>
          simp only [addFlowAmount] at ih ⊢
          exact le_trans (min_le_right _ _) ih

theorem clamp_le (x u : Nat) (h : 1 ≤ u) : clamp x 1 u ≤ u := by
  unfold clamp
  exact max_le h (min_le_right x u)

/-- C6: PushFlow, under its precondition of positive unsatisfied demand,
computes the clamped target amount clamp(demand / accuracy, 1,
unsatisfied), pushes exactly what Path::AddFlow grants, which never
exceeds that target, subtracts exactly the pushed amount from the
unsatisfied demand (leaving the demand itself unchanged), and returns the
pushed amount. -/
theorem c6_PushFlow (accuracy : Nat) (ms : Option Nat) (e : DemandEdge) (p : MPath)
    (h : 0 < e.unsat) :
    (PushFlow accuracy ms e p).1 =
      addFlowAmount ms (clamp (e.demand / accuracy) 1 e.unsat) p.edges ∧
    (PushFlow accuracy ms e p).1 ≤ clamp (e.demand / accuracy) 1 e.unsat ∧
    (PushFlow accuracy ms e p).2.1.unsat + (PushFlow accuracy ms e p).1 = e.unsat ∧
    (PushFlow accuracy ms e p).2.1.demand = e.demand := by
  have h1 : (PushFlow accuracy ms e p).1 =
      addFlowAmount ms (clamp (e.demand / accuracy) 1 e.unsat) p.edges := rfl
  have h2 : (PushFlow accuracy ms e p).1 ≤ clamp (e.demand / accuracy) 1 e.unsat := by
    rw [h1]; exact addFlowAmount_le ms _ p.edges
  have h3 : (PushFlow accuracy ms e p).1 ≤ e.unsat :=
    le_trans h2 (clamp_le _ _ h)
  have h4 : (PushFlow accuracy ms e p).2.1.unsat = e.unsat - (PushFlow accuracy ms e p).1 :=
    rfl
  refine ⟨h1, h2, ?_, rfl⟩
  rw [h4]
  omega

theorem c6_witness :
    0 < (⟨50, 50⟩ : DemandEdge).unsat ∧
    ((PushFlow 10 (some 80) ⟨50, 50⟩ ⟨[⟨10, 0⟩], 10⟩).1 =
      addFlowAmount (some 80) (clamp (50 / 10) 1 50) [⟨10, 0⟩] ∧
    (PushFlow 10 (some 80) ⟨50, 50⟩ ⟨[⟨10, 0⟩], 10⟩).1 ≤ clamp (50 / 10) 1 50 ∧
    (PushFlow 10 (some 80) ⟨50, 50⟩ ⟨[⟨10, 0⟩], 10⟩).2.1.unsat +
      (PushFlow 10 (some 80) ⟨50, 50⟩ ⟨[⟨10, 0⟩], 10⟩).1 = 50 ∧
    (PushFlow 10 (some 80) ⟨50, 50⟩ ⟨[⟨10, 0⟩], 10⟩).2.1.demand = 50) :=
  ⟨by decide, c6_PushFlow 10 (some 80) ⟨50, 50⟩ ⟨[⟨10, 0⟩], 10⟩ (by decide)⟩

/-- C1 counterexample: in the pass-1 loop body, the one-shot overloaded
push is not restricted to paths with non-positive free capacity.  With
demand 10, unsatisfied demand 10, accuracy 1, max_saturation 100 and a
path whose stored free_capacity is 5 but whose single edge is already at
its saturation cap (capacity 1, flow 1), the normal push moves 0 units
and the code falls through to the overloaded push although the path's
free_capacity is positive. -/
theorem c1_counterexample :
    (pass1Inner 1 (some 100) ⟨10, 10⟩ ⟨[⟨1, 1⟩], 5⟩ false).did_overload = true ∧
    (0 : Int) < (⟨[⟨1, 1⟩], 5⟩ : MPath).free_capacity := by
  constructor
  · decide
  · decide

/-- C1 (amended): in the pass-1 loop body the one-shot overloaded push
(PushFlow with max_saturation = infinity) runs exactly when the edge has
unsatisfied demand equal to its total demand, the path is above the
INT_MIN sentinel, and either the path's stored free_capacity is not
positive or the normal saturation-capped push was performed and moved 0
units; a path with positive stored free_capacity always receives the
normal push first. -/
theorem c1_pass1_overload_rule (accuracy : Nat) (ms : Option Nat) (e : DemandEdge)
    (p : MPath) (ml : Bool) :
    ((pass1Inner accuracy ms e p ml).did_overload = true ↔
      (0 < e.unsat ∧ e.unsat = e.demand ∧ INT_MIN < p.free_capacity ∧
        (p.free_capacity ≤ 0 ∨ (PushFlow accuracy ms e p).1 = 0))) ∧
    ((pass1Inner accuracy ms e p ml).did_normal = true ↔
      (0 < e.unsat ∧ 0 < p.free_capacity)) := by
  have hu : (PushFlow accuracy ms e p).2.1.unsat = e.unsat - (PushFlow accuracy ms e p).1 :=
    rfl
  have hd : (PushFlow accuracy ms e p).2.1.demand = e.demand := rfl
  have hf : (PushFlow accuracy ms e p).2.2.free_capacity = p.free_capacity := rfl
  by_cases h1 : 0 < e.unsat
  · by_cases h2 : 0 < p.free_capacity
    · by_cases h3 : 0 < (PushFlow accuracy ms e p).1
      · have hres : pass1Inner accuracy ms e p ml =
            ⟨(PushFlow accuracy ms e p).2.1, (PushFlow accuracy ms e p).2.2,
              ml || decide (0 < (PushFlow accuracy ms e p).2.1.unsat), true, false⟩ := by
          simp only [pass1Inner, if_pos h1, if_pos h2, if_pos h3]
        rw [hres]
        dsimp only
        constructor
        · constructor
          · intro hc
            exact absurd hc (by simp)
          · intro hc
            rcases hc.2.2.2 with hle | hz
            · omega
            · omega
        · constructor
          · intro _
            exact ⟨h1, h2⟩
          · intro _
            rfl
      · have hz : (PushFlow accuracy ms e p).1 = 0 := by omega
        by_cases h4 : (PushFlow accuracy ms e p).2.1.unsat =
            (PushFlow accuracy ms e p).2.1.demand ∧
            INT_MIN < (PushFlow accuracy ms e p).2.2.free_capacity
        · have h4' : e.unsat = e.demand ∧ INT_MIN < p.free_capacity := by
            rw [hu, hd, hf, hz] at h4
            omega
          have hres : pass1Inner accuracy ms e p ml =
              ⟨(PushFlow accuracy none (PushFlow accuracy ms e p).2.1
                  (PushFlow accuracy ms e p).2.2).2.1,
                (PushFlow accuracy none (PushFlow accuracy ms e p).2.1
                  (PushFlow accuracy ms e p).2.2).2.2, ml, true, true⟩ := by
            simp only [pass1Inner, if_pos h1, if_pos h2, if_neg h3, if_pos h4]
          rw [hres]
          dsimp only
          constructor
          · constructor
            · intro _
              exact ⟨h1, h4'.1, h4'.2, Or.inr hz⟩
            · intro _
              rfl
          · constructor
            · intro _
              exact ⟨h1, h2⟩
            · intro _
              rfl
        · have h4' : ¬ (e.unsat = e.demand ∧ INT_MIN < p.free_capacity) := by
            rw [hu, hd, hf, hz] at h4
            omega
          have hres : pass1Inner accuracy ms e p ml =
              ⟨(PushFlow accuracy ms e p).2.1, (PushFlow accuracy ms e p).2.2,
                ml, true, false⟩ := by
            simp only [pass1Inner, if_pos h1, if_pos h2, if_neg h3, if_neg h4]
          rw [hres]
          dsimp only
          constructor
          · constructor
            · intro hc
              exact absurd hc (by simp)
            · intro hc
              exact absurd ⟨hc.2.1, hc.2.2.1⟩ h4'
          · constructor
            · intro _
              exact ⟨h1, h2⟩
            · intro _
              rfl
    · by_cases h5 : e.unsat = e.demand ∧ INT_MIN < p.free_capacity
      · have hle : p.free_capacity ≤ 0 := by omega
        have hres : pass1Inner accuracy ms e p ml =
            ⟨(PushFlow accuracy none e p).2.1, (PushFlow accuracy none e p).2.2,
              ml, false, true⟩ := by
          simp only [pass1Inner, if_pos h1, if_neg h2, if_pos h5]
        rw [hres]
        dsimp only
        constructor
        · constructor
          · intro _
            exact ⟨h1, h5.1, h5.2, Or.inl hle⟩
          · intro _
            rfl
        · constructor
          · intro hc
            exact absurd hc (by simp)
          · intro hc
            exact absurd hc.2 h2
      · have hres : pass1Inner accuracy ms e p ml = ⟨e, p, ml, false, false⟩ := by
          simp only [pass1Inner, if_pos h1, if_neg h2, if_neg h5]
        rw [hres]
        dsimp only
        constructor
        · constructor
          · intro hc
            exact absurd hc (by simp)
          · intro hc
            exact absurd ⟨hc.2.1, hc.2.2.1⟩ h5
        · constructor
          · intro hc
            exact absurd hc (by simp)
          · intro hc
            exact absurd hc.2 h2
  · have hres : pass1Inner accuracy ms e p ml = ⟨e, p, ml, false, false⟩ := by
      simp only [pass1Inner, if_neg h1]
    rw [hres]
    dsimp only
    constructor
    · constructor
      · intro hc
        exact absurd hc (by simp)
      · intro hc
        exact absurd hc.1 h1
    · constructor
      · intro hc
        exact absurd hc (by simp)
      · intro hc
        exact absurd hc.1 h1

theorem toInt32_uintSub32 (a b : Nat) (ha : a < 2 ^ 31) (hb : b < 2 ^ 31) :
    toInt32 (uintSub32 a b) = (a : Int) - b := by
  simp only [uintSub32, toInt32]
  split <;> omega

theorem effectiveCapacity_no_overflow (c s : Nat) (hs : s ≠ UINT_MAX)
    (hov : c * s < 2 ^ 32) :
    effectiveCapacity s c = max 1 (c * s / 100) := by
  unfold effectiveCapacity
  rw [if_neg hs, Nat.mod_eq_of_lt hov]
  rcases Nat.eq_zero_or_pos (c * s / 100) with h0 | h0
  · simp [h0]
  · have hne : ¬ c * s / 100 = 0 := by omega
    simp only [hne, if_false]
    omega

/-- C4: in Dijkstra's relaxation step a target equal to the current node
is skipped; otherwise the effective capacity is the raw capacity when
max_saturation = UINT_MAX and max(1, raw * max_saturation / 100)
otherwise, the free capacity is the effective capacity minus the edge
flow, the distance is edge.distance + 1, and paths[to] is erased from the
frontier, re-parented with Fork and re-inserted exactly when IsBetter
holds, the path vector and frontier being unchanged otherwise.  (The
arithmetic equalities hold under the stated no-overflow bounds; compare
C10 for the wrapped case.) -/
theorem c4_relaxStep {A : Type} (ops : RelaxOps A) (max_saturation : Nat)
    (edge : DijkEdge) (fromN toN : Nat) (paths : Nat → A) (annos : Finset Nat)
    (hcap : edge.capacity < 2 ^ 31) (hflow : edge.flow < 2 ^ 31)
    (hov : max_saturation ≠ UINT_MAX → edge.capacity * max_saturation < 2 ^ 32) :
    (toN = fromN → relaxStep ops max_saturation edge fromN toN paths annos =
      (paths, annos)) ∧
    (toN ≠ fromN →
      relaxStep ops max_saturation edge fromN toN paths annos =
        (if ops.isBetter (paths toN) (paths fromN)
            (if max_saturation = UINT_MAX then edge.capacity
              else max 1 (edge.capacity * max_saturation / 100))
            ((((if max_saturation = UINT_MAX then edge.capacity
              else max 1 (edge.capacity * max_saturation / 100)) : Nat) : Int) - edge.flow)
            (edge.distance + 1) then
          (fun n => if n = toN then
              ops.fork (paths toN) (paths fromN)
                (if max_saturation = UINT_MAX then edge.capacity
                  else max 1 (edge.capacity * max_saturation / 100))
                ((((if max_saturation = UINT_MAX then edge.capacity
                  else max 1 (edge.capacity * max_saturation / 100)) : Nat) : Int) - edge.flow)
                (edge.distance + 1)
            else paths n, insert toN (annos.erase toN))
        else (paths, annos))) := by
  have hcapeq : effectiveCapacity max_saturation edge.capacity =
      (if max_saturation = UINT_MAX then edge.capacity
        else max 1 (edge.capacity * max_saturation / 100)) := by
    by_cases hm : max_saturation = UINT_MAX
    · rw [if_pos hm]
      unfold effectiveCapacity
      rw [if_pos hm]
    · rw [if_neg hm]
      exact effectiveCapacity_no_overflow edge.capacity max_saturation hm (hov hm)
  have hefflt : effectiveCapacity max_saturation edge.capacity < 2 ^ 31 := by
    rw [hcapeq]
    by_cases hm : max_saturation = UINT_MAX
    · rw [if_pos hm]
      exact hcap
    · rw [if_neg hm]
      have := hov hm
      omega
  have hfree : toInt32 (uintSub32 (effectiveCapacity max_saturation edge.capacity)
      edge.flow) = (effectiveCapacity max_saturation edge.capacity : Int) - edge.flow :=
    toInt32_uintSub32 _ _ hefflt hflow
  constructor
  · intro h
    simp [relaxStep, h]
  · intro h
    simp only [relaxStep, if_neg h]
    rw [hfree, hcapeq]

theorem c4_witness :
    relaxStep (⟨fun _ _ _ _ _ => true, fun _ _ c _ d => c + d⟩ : RelaxOps Nat) 80
      ⟨7, 5, 3⟩ 0 0 (fun _ => 0) ∅ = (fun _ => 0, ∅) :=
  (c4_relaxStep (⟨fun _ _ _ _ _ => true, fun _ _ c _ d => c + d⟩ : RelaxOps Nat) 80
    ⟨7, 5, 3⟩ 0 0 (fun _ => 0) ∅ (by decide) (by decide) (fun _ => by decide)).1 rfl

theorem findCycleFlowGo_le_acc (g n : Nat → Nat) :
    ∀ (k cur acc : Nat), findCycleFlowGo g n k cur acc ≤ acc := by
  intro k
  induction k with
  | zero => intro cur acc; exact le_refl acc
  | succ k ih =>
      intro cur acc
      exact le_trans (ih (n cur) (min acc (g cur))) (min_le_left _ _)

theorem findCycleFlowGo_le_mem (g n : Nat → Nat) :
    ∀ (k cur acc : Nat), ∀ s ∈ window n k cur, findCycleFlowGo g n k cur acc ≤ g s := by
  intro k
  induction k with
  | zero => intro cur acc s hs; simp [window] at hs
  | succ k ih =>
      intro cur acc s hs
      rw [window] at hs
      rcases List.mem_cons.mp hs with h | h
      · rw [findCycleFlowGo, h]
        exact le_trans (findCycleFlowGo_le_acc g n k (n cur) (min acc (g cur)))
          (min_le_right _ _)
      · exact ih (n cur) (min acc (g cur)) s h

theorem findCycleFlowGo_attained (g n : Nat → Nat) :
    ∀ (k cur acc : Nat),
      (∃ s ∈ window n k cur, findCycleFlowGo g n k cur acc = g s) ∨
        findCycleFlowGo g n k cur acc = acc := by
  intro k
  induction k with
  | zero => intro cur acc; exact Or.inr rfl
  | succ k ih =>
      intro cur acc
      rcases ih (n cur) (min acc (g cur)) with ⟨s, hs, he⟩ | he
      · exact Or.inl ⟨s, by rw [window]; exact List.mem_cons_of_mem _ hs, he⟩
      · rcases le_total acc (g cur) with h | h
        · rw [findCycleFlowGo, he, min_eq_left h]
          exact Or.inr rfl
        · rw [findCycleFlowGo, he, min_eq_right h]
          exact Or.inl ⟨cur, by rw [window]; exact List.mem_cons_self _ _, rfl⟩

theorem eliminateCycleGo_pathFlow (n : Nat → Nat) (f : Nat) :
    ∀ (k cur : Nat) (st : CycleState), (window n k cur).Nodup →
      ∀ s, (eliminateCycleGo n f k cur st).pathFlow s =
        if s ∈ window n k cur then st.pathFlow s - f else st.pathFlow s := by
  intro k
  induction k with
  | zero => intro cur st _ s; simp [eliminateCycleGo, window]
  | succ k ih =>
      intro cur st hnd s
      rw [window] at hnd
      have hcur : cur ∉ window n k (n cur) := (List.nodup_cons.mp hnd).1
      have hnd' : (window n k (n cur)).Nodup := (List.nodup_cons.mp hnd).2
      rw [eliminateCycleGo]
      rw [ih (n cur) _ hnd' s]
      by_cases h1 : s = cur
      · subst h1
        have : s ∉ window n k (n s) := hcur
        simp [window, this]
      · by_cases h2 : s ∈ window n k (n cur)
        · simp [window, h1, h2]
        · simp [window, h1, h2]

theorem eliminateCycleGo_succ (n : Nat → Nat) (f k cur : Nat) (st : CycleState) :
    eliminateCycleGo n f (k + 1) cur st =
      eliminateCycleGo n f k (n cur)
        ⟨fun s => if s = cur then st.pathFlow s - f else st.pathFlow s,
          fun a b => if a = n cur ∧ b = n (n cur) then st.edgeFlow a b - f
            else st.edgeFlow a b⟩ := rfl

theorem eliminateCycleGo_edgeFlow (n : Nat → Nat) (f : Nat) :
    ∀ (k cur : Nat) (st : CycleState), (window n k (n cur)).Nodup →
      ∀ a b, (eliminateCycleGo n f k cur st).edgeFlow a b =
        if a ∈ window n k (n cur) ∧ b = n a then st.edgeFlow a b - f
        else st.edgeFlow a b := by
  intro k
  induction k with
  | zero => intro cur st _ a b; simp [eliminateCycleGo, window]
  | succ k ih =>
      intro cur st hnd a b
      rw [window] at hnd
      have hcur : n cur ∉ window n k (n (n cur)) := (List.nodup_cons.mp hnd).1
      have hnd' : (window n k (n (n cur))).Nodup := (List.nodup_cons.mp hnd).2
      rw [eliminateCycleGo_succ]
      rw [ih (n cur) _ hnd' a b]
      dsimp only
      rw [show window n (k + 1) (n cur) = n cur :: window n k (n (n cur)) from rfl]
      by_cases h1 : a = n cur
      · have hna : n a = n (n cur) := by rw [h1]
        have hnotin : ¬ a ∈ window n k (n (n cur)) := by rw [h1]; exact hcur
        by_cases h2 : b = n a
        · have hb : b = n (n cur) := by rw [h2, hna]
          rw [if_neg (fun hc => hnotin hc.1)]
          rw [if_pos (⟨h1, hb⟩ : a = n cur ∧ b = n (n cur))]
          rw [if_pos ⟨by rw [h1]; exact List.mem_cons_self _ _, h2⟩]
        · have hb : ¬ b = n (n cur) := fun hc => h2 (by rw [hc, hna])
          rw [if_neg (fun hc => hnotin hc.1)]
          rw [if_neg (fun hc : a = n cur ∧ b = n (n cur) => hb hc.2)]
          rw [if_neg (fun hc => h2 hc.2)]
      · have hinner : ¬ (a = n cur ∧ b = n (n cur)) := fun hc => h1 hc.1
        simp only [if_neg hinner]
        simp only [List.mem_cons, h1, false_or]

/-- C7: for a detected cycle (a first-return chain of pairwise distinct
slots), FindCycleFlow returns the minimum of the path flows along the
cycle; EliminateCycle with flow f subtracts exactly f from the flow of
each path slot on the cycle and exactly f from each traversed edge,
touching each element once and leaving everything else unchanged; and the
cycle branch of EliminateCycles performs the subtraction and reports the
cycle only when the computed flow is positive. -/
theorem c7_cycle_elimination (st : CycleState) (next : Nat → Nat) (start len : Nat)
    (hlen : 0 < len) (hnd : (window next len start).Nodup)
    (hnd2 : (window next len (next start)).Nodup)
    (hcyc : next^[len] start = start)
    (hub : ∀ s, st.pathFlow s ≤ UINT_MAX) :
    (∀ s ∈ window next len start,
      FindCycleFlow st.pathFlow next start len ≤ st.pathFlow s) ∧
    (∃ s ∈ window next len start,
      FindCycleFlow st.pathFlow next start len = st.pathFlow s) ∧
    (∀ f s, (EliminateCycle next start len f st).pathFlow s =
      if s ∈ window next len start then st.pathFlow s - f else st.pathFlow s) ∧
    (∀ f a b, (EliminateCycle next start len f st).edgeFlow a b =
      if a ∈ window next len (next start) ∧ b = next a then st.edgeFlow a b - f
      else st.edgeFlow a b) ∧
    (FindCycleFlow st.pathFlow next start len = 0 →
      cycleStep next start len st = (false, st)) ∧
    (0 < FindCycleFlow st.pathFlow next start len →
      cycleStep next start len st =
        (true, EliminateCycle next start len (FindCycleFlow st.pathFlow next start len) st)) := by
  have hstart : start ∈ window next len start := by
    rcases Nat.exists_eq_succ_of_ne_zero (Nat.pos_iff_ne_zero.mp hlen) with ⟨m, hm⟩
    rw [hm, window]
    exact List.mem_cons_self _ _
  refine ⟨fun s hs => findCycleFlowGo_le_mem _ _ len start UINT_MAX s hs, ?_, ?_, ?_, ?_, ?_⟩
  · rcases findCycleFlowGo_attained st.pathFlow next len start UINT_MAX with ⟨s, hs, he⟩ | he
    · exact ⟨s, hs, he⟩
    · refine ⟨start, hstart, ?_⟩
      have h1 : FindCycleFlow st.pathFlow next start len ≤ st.pathFlow start :=
        findCycleFlowGo_le_mem _ _ len start UINT_MAX start hstart
      have h2 : st.pathFlow start ≤ UINT_MAX := hub start
      unfold FindCycleFlow at h1 ⊢
      omega
  · intro f s
    exact eliminateCycleGo_pathFlow next f len start st hnd s
  · intro f a b
    exact eliminateCycleGo_edgeFlow next f len start st hnd2 a b
  · intro hz
    unfold cycleStep
    rw [hz]
    simp
  · intro hp
    unfold cycleStep
    rw [if_pos hp]

theorem c7_witness :
    (0 < 3 ∧
      (window (fun s => if s = 0 then 1 else if s = 1 then 2 else if s = 2 then 0 else s)
        3 0).Nodup ∧
      (fun s => if s = 0 then 1 else if s = 1 then 2 else if s = 2 then 0 else s)^[3] 0 = 0) ∧
    ∃ s ∈ window (fun s => if s = 0 then 1 else if s = 1 then 2 else if s = 2 then 0 else s) 3 0,
      FindCycleFlow (fun s => s % 5 + 1)
        (fun s => if s = 0 then 1 else if s = 1 then 2 else if s = 2 then 0 else s) 0 3 =
        s % 5 + 1 :=
  ⟨⟨by decide, by decide, by decide⟩,
    (c7_cycle_elimination ⟨fun s => s % 5 + 1, fun a b => a * 10 + b⟩
      (fun s => if s = 0 then 1 else if s = 1 then 2 else if s = 2 then 0 else s) 0 3
      (by decide) (by decide) (by decide) (by decide)
      (fun s => by
        have h5 : s % 5 < 5 := Nat.mod_lt _ (by norm_num)
        simp only [UINT_MAX]
        omega)).2.1⟩

theorem pass2DestStep_unsat_le (accuracy : Nat) (fc : Int) (e : DemandEdge) (dl : Bool) :
    (pass2DestStep accuracy fc e dl).1.unsat ≤ e.unsat := by
  unfold pass2DestStep
  split
  · dsimp only
    have h2 : (PushFlow accuracy none e ⟨[], fc⟩).2.1.unsat =
        e.unsat - (PushFlow accuracy none e ⟨[], fc⟩).1 := rfl
    omega
  · exact le_refl _

theorem pass2DestStep_dl (accuracy : Nat) (fc : Int) (e : DemandEdge) (dl : Bool) :
    (pass2DestStep accuracy fc e dl).2 = true →
      dl = true ∨ (pass2DestStep accuracy fc e dl).1.unsat < e.unsat := by
  unfold pass2DestStep
  split
  next hcond =>
    intro _
    right
    dsimp only
    have hu : 0 < e.unsat := hcond.1
    have h1 : (PushFlow accuracy none e ⟨[], fc⟩).1 =
        clamp (e.demand / accuracy) 1 e.unsat := rfl
    have h2 : (PushFlow accuracy none e ⟨[], fc⟩).2.1.unsat =
        e.unsat - (PushFlow accuracy none e ⟨[], fc⟩).1 := rfl
    have hw : 1 ≤ clamp (e.demand / accuracy) 1 e.unsat := le_max_left _ _
    have hle : clamp (e.demand / accuracy) 1 e.unsat ≤ e.unsat := clamp_le _ _ hu
    omega
  next hcond =>
    intro h
    exact Or.inl h

theorem totalUnsat_update_le (st : Pass2State) (source dest v : Nat)
    (hv : v ≤ st.unsat source dest) :
    totalUnsat { st with unsat := fun s d =>
        if s = source ∧ d = dest then v else st.unsat s d } ≤ totalUnsat st := by
  unfold totalUnsat
  dsimp only
  apply Finset.sum_le_sum
  intro s _
  apply Finset.sum_le_sum
  intro d _
  by_cases h : s = source ∧ d = dest
  · rw [if_pos h, h.1, h.2]
    exact hv
  · rw [if_neg h]

theorem totalUnsat_update_lt (st : Pass2State) (source dest v : Nat)
    (hs : source < st.n) (hd : dest < st.n) (hv : v < st.unsat source dest) :
    totalUnsat { st with unsat := fun s d =>
        if s = source ∧ d = dest then v else st.unsat s d } < totalUnsat st := by
  unfold totalUnsat
  dsimp only
  apply Finset.sum_lt_sum
  · intro s _
    apply Finset.sum_le_sum
    intro d _
    by_cases h : s = source ∧ d = dest
    · rw [if_pos h, h.1, h.2]
      exact le_of_lt hv
    · rw [if_neg h]
  · refine ⟨source, Finset.mem_range.mpr hs, ?_⟩
    apply Finset.sum_lt_sum
    · intro d _
      by_cases h : source = source ∧ d = dest
      · rw [if_pos h, h.2]
        exact le_of_lt hv
      · rw [if_neg h]
    · refine ⟨dest, Finset.mem_range.mpr hd, ?_⟩
      rw [if_pos ⟨rfl, rfl⟩]
      exact hv

theorem pass2DestFoldl_spec (source : Nat) (fc : Nat → Int) :
    ∀ (l : List Nat) (acc : Pass2State × Bool), source < acc.1.n →
      (l.foldl (pass2DestBody source fc) acc).1.n = acc.1.n ∧
      totalUnsat (l.foldl (pass2DestBody source fc) acc).1 ≤ totalUnsat acc.1 ∧
      ((∀ d ∈ l, d < acc.1.n) →
        (l.foldl (pass2DestBody source fc) acc).2 = true →
        acc.2 = true ∨
          totalUnsat (l.foldl (pass2DestBody source fc) acc).1 < totalUnsat acc.1) := by
  intro l
  induction l with
  | nil =>
      intro acc _
      exact ⟨rfl, le_refl _, fun _ h => Or.inl h⟩
  | cons dest rest ih =>
      intro acc hsrc
      rw [List.foldl_cons]
      have hstep_n : (pass2DestBody source fc acc dest).1.n = acc.1.n := rfl
      have hstep_le : totalUnsat (pass2DestBody source fc acc dest).1 ≤ totalUnsat acc.1 := by
        unfold pass2DestBody
        dsimp only
        apply totalUnsat_update_le
        exact pass2DestStep_unsat_le _ _ _ _
      have hsrc' : source < (pass2DestBody source fc acc dest).1.n := by
        rw [hstep_n]
        exact hsrc
      rcases ih (pass2DestBody source fc acc dest) hsrc' with ⟨ihn, ihle, ihdl⟩
      refine ⟨by rw [ihn, hstep_n], le_trans ihle hstep_le, ?_⟩
      intro hmem hdl
      have hdest : dest < acc.1.n := hmem dest (List.mem_cons_self _ _)
      have hmem' : ∀ d ∈ rest, d < (pass2DestBody source fc acc dest).1.n := by
        intro d hdm
        rw [hstep_n]
        exact hmem d (List.mem_cons_of_mem _ hdm)
      rcases ihdl hmem' hdl with hd2 | hlt
      · -- the step itself raised demand_left or it was already set
        have hstep_dl : (pass2DestBody source fc acc dest).2 = true := hd2
        have := pass2DestStep_dl acc.1.accuracy (fc dest)
          ⟨acc.1.demand source dest, acc.1.unsat source dest⟩ acc.2 hstep_dl
        rcases this with hacc | hstrict
        · exact Or.inl hacc
        · right
          have hupd : totalUnsat (pass2DestBody source fc acc dest).1 < totalUnsat acc.1 := by
            unfold pass2DestBody
            dsimp only
            apply totalUnsat_update_lt _ _ _ _ hsrc hdest
            exact hstrict
          exact lt_of_le_of_lt ihle hupd
      · exact Or.inr (lt_of_lt_of_le hlt hstep_le)

theorem pass2Source_spec (oracle : Pass2State → Nat → Nat → Int) (acc : Pass2State × Bool)
    (source : Nat) (hs : source < acc.1.n) :
    (pass2Source oracle acc source).1.n = acc.1.n ∧
    totalUnsat (pass2Source oracle acc source).1 ≤ totalUnsat acc.1 ∧
    ((pass2Source oracle acc source).2 = true →
      acc.2 = true ∨ totalUnsat (pass2Source oracle acc source).1 < totalUnsat acc.1) := by
  unfold pass2Source
  rcases pass2DestFoldl_spec source (oracle acc.1 source) (List.range acc.1.n) acc hs with
    ⟨hn, hle, hdl⟩
  exact ⟨hn, hle, fun h => hdl (fun d hd => List.mem_range.mp hd) h⟩

theorem pass2SourceFoldl_spec (oracle : Pass2State → Nat → Nat → Int) :
    ∀ (l : List Nat) (acc : Pass2State × Bool), (∀ s ∈ l, s < acc.1.n) →
      (l.foldl (pass2Source oracle) acc).1.n = acc.1.n ∧
      totalUnsat (l.foldl (pass2Source oracle) acc).1 ≤ totalUnsat acc.1 ∧
      ((l.foldl (pass2Source oracle) acc).2 = true →
        acc.2 = true ∨ totalUnsat (l.foldl (pass2Source oracle) acc).1 < totalUnsat acc.1) := by
  intro l
  induction l with
  | nil =>
      intro acc _
      exact ⟨rfl, le_refl _, fun h => Or.inl h⟩
  | cons source rest ih =>
      intro acc hmem
      rw [List.foldl_cons]
      have hsrc : source < acc.1.n := hmem source (List.mem_cons_self _ _)
      rcases pass2Source_spec oracle acc source hsrc with ⟨hn, hle, hdl⟩
      have hmem' : ∀ s ∈ rest, s < (pass2Source oracle acc source).1.n := by
        intro s hsm
        rw [hn]
        exact hmem s (List.mem_cons_of_mem _ hsm)
      rcases ih (pass2Source oracle acc source) hmem' with ⟨ihn, ihle, ihdl⟩
      refine ⟨by rw [ihn, hn], le_trans ihle hle, ?_⟩
      intro h
      rcases ihdl h with hd2 | hlt
      · rcases hdl hd2 with hacc | hstrict
        · exact Or.inl hacc
        · exact Or.inr (lt_of_le_of_lt ihle hstrict)
      · exact Or.inr (lt_of_lt_of_le hlt hle)

theorem pass2Sweep_spec (oracle : Pass2State → Nat → Nat → Int) (st : Pass2State) :
    totalUnsat (pass2Sweep oracle st).1 ≤ totalUnsat st ∧
    ((pass2Sweep oracle st).2 = true →
      totalUnsat (pass2Sweep oracle st).1 < totalUnsat st) := by
  unfold pass2Sweep
  rcases pass2SourceFoldl_spec oracle (List.range st.n) (st, false)
    (fun s hs => List.mem_range.mp hs) with ⟨_, hle, hdl⟩
  refine ⟨hle, fun h => ?_⟩
  rcases hdl h with hfalse | hlt
  · exact absurd hfalse (by simp)
  · exact hlt

/-- C9: the pass-2 driver loop terminates: a sweep that reports
demand_left strictly reduces the total unsatisfied demand, so the loop
needs at most totalUnsat-many sweeps; and each eligible push (max_saturation
= infinity) moves exactly the clamped want, which is at least one unit. -/
theorem c9_pass2_terminates :
    (∀ (oracle : Pass2State → Nat → Nat → Int) (fuel : Nat) (st : Pass2State),
      totalUnsat st < fuel → (pass2Go oracle fuel st).isSome = true) ∧
    (∀ (accuracy : Nat) (e : DemandEdge) (p : MPath), 0 < e.unsat →
      (PushFlow accuracy none e p).1 = clamp (e.demand / accuracy) 1 e.unsat ∧
      1 ≤ (PushFlow accuracy none e p).1) := by
  constructor
  · intro oracle fuel
    induction fuel with
    | zero => intro st h; omega
    | succ fuel ih =>
        intro st h
        rw [pass2Go]
        by_cases hd : (pass2Sweep oracle st).2 = true
        · rw [if_pos hd]
          apply ih
          have hlt := (pass2Sweep_spec oracle st).2 hd
          omega
        · rw [if_neg hd]
          rfl
  · intro accuracy e p h
    refine ⟨rfl, ?_⟩
    have h1 : (PushFlow accuracy none e p).1 = clamp (e.demand / accuracy) 1 e.unsat := rfl
    have h2 : 1 ≤ clamp (e.demand / accuracy) 1 e.unsat := le_max_left _ _
    omega

theorem c9_witness :
    totalUnsat ⟨1, 1, fun _ _ => 3, fun _ _ => 3⟩ < 4 ∧
    (pass2Go (fun _ _ _ => 0) 4 ⟨1, 1, fun _ _ => 3, fun _ _ => 3⟩).isSome = true ∧
    0 < (⟨3, 3⟩ : DemandEdge).unsat ∧
    ((PushFlow 1 none ⟨3, 3⟩ ⟨[], 0⟩).1 = clamp (3 / 1) 1 3 ∧
      1 ≤ (PushFlow 1 none ⟨3, 3⟩ ⟨[], 0⟩).1) :=
  ⟨by decide,
    c9_pass2_terminates.1 (fun _ _ _ => 0) 4 ⟨1, 1, fun _ _ => 3, fun _ _ => 3⟩ (by decide),
    by decide,
    c9_pass2_terminates.2 1 ⟨3, 3⟩ ⟨[], 0⟩ (by decide)⟩

theorem lookupHop_eq_none (key : Nat) :
    ∀ l : List (Nat × Nat), lookupHop key l = none → ∀ v, (key, v) ∉ l := by
  intro l
  induction l with
  | nil => intro _ v h; simp at h
  | cons kv rest ih =>
      intro h v hm
      rw [lookupHop] at h
      rcases List.mem_cons.mp hm with he | hm'
      · rw [← he] at h
        simp at h
      · split at h
        · exact absurd h (by simp)
        · exact ih h v hm'

theorem lookupHop_eq_some (key v : Nat) :
    ∀ l : List (Nat × Nat), lookupHop key l = some v → (key, v) ∈ l := by
  intro l
  induction l with
  | nil => intro h; simp [lookupHop] at h
  | cons kv rest ih =>
      intro h
      rw [lookupHop] at h
      split at h
      · rename_i heq
        have hv : kv.2 = v := by
          simpa using h
        have : kv = (key, v) := by
          rcases kv with ⟨k1, v1⟩
          simp only at heq hv
          rw [heq, hv]
        rw [← this]
        exact List.mem_cons_self _ _
      · exact List.mem_cons_of_mem _ (ih h)

theorem insertHop_mem (key v : Nat) :
    ∀ (l : List (Nat × Nat)) (k w : Nat),
      ((k, w) ∈ insertHop key v l ↔ (k = key ∧ w = v) ∨ (k, w) ∈ l) := by
  intro l
  induction l with
  | nil =>
      intro k w
      simp [insertHop, Prod.ext_iff]
  | cons kv rest ih =>
      intro k w
      rw [insertHop]
      split
      · constructor
        · intro h
          rcases List.mem_cons.mp h with he | hm
          · left
            exact ⟨congrArg Prod.fst he, congrArg Prod.snd he⟩
          · right
            exact hm
        · intro h
          rcases h with ⟨h1, h2⟩ | hm
          · rw [h1, h2]
            exact List.mem_cons_self _ _
          · exact List.mem_cons_of_mem _ hm
      · constructor
        · intro h
          rcases List.mem_cons.mp h with he | hm
          · right
            rw [he]
            exact List.mem_cons_self _ _
          · rcases (ih k w).mp hm with hn | ho
            · exact Or.inl hn
            · exact Or.inr (List.mem_cons_of_mem _ ho)
        · intro h
          rcases h with ⟨h1, h2⟩ | hm
          · exact List.mem_cons_of_mem _ ((ih k w).mpr (Or.inl ⟨h1, h2⟩))
          · rcases List.mem_cons.mp hm with he | hm'
            · rw [he]
              exact List.mem_cons_self _ _
            · exact List.mem_cons_of_mem _ ((ih k w).mpr (Or.inr hm'))

theorem fragGroup_append (env : FragEnv) (origin k : Nat) (p q : List Nat) :
    fragGroup env origin k (p ++ q) = fragGroup env origin k p ++ fragGroup env origin k q := by
  unfold fragGroup
  exact List.filter_append _ _

theorem mergeGo_inv (env : FragEnv) (origin : Nat) (st0 : CEState) :
    ∀ (l p : List Nat) (st : CEState) (hops : List (Nat × Nat)),
      (p ++ l).Nodup → MergeInv env origin st0 p st hops →
      MergeInv env origin st0 (p ++ l) (mergeGo env origin l st hops).1
        (mergeGo env origin l st hops).2 := by
  intro l
  induction l with
  | nil =>
      intro p st hops hnd hinv
      simpa [mergeGo] using hinv
  | cons fid rest ih =>
      intro p st hops hnd hinv
      obtain ⟨hI0, hI1, hI2, hI3, hI4, hI5, hI6⟩ := hinv
      have heq : p ++ fid :: rest = (p ++ [fid]) ++ rest := by simp
      have hnd' : ((p ++ [fid]) ++ rest).Nodup := by rw [← heq]; exact hnd
      have hfid_p : fid ∉ p := by
        rcases List.nodup_append.mp hnd with ⟨_, _, hdisj⟩
        intro hc
        exact hdisj hc (List.mem_cons_self _ _)
      rw [heq]
      by_cases horig : env.origin fid = origin
      · cases hlook : lookupHop (env.node fid) hops with
        | none =>
            have hunf : mergeGo env origin (fid :: rest) st hops =
                mergeGo env origin rest st (insertHop (env.node fid) fid hops) := by
              rw [mergeGo, if_pos horig, hlook]
            rw [hunf]
            apply ih (p ++ [fid]) st _ hnd'
            have hnok : ∀ v, (env.node fid, v) ∉ hops := lookupHop_eq_none _ hops hlook
            have hgrp_nil : fragGroup env origin (env.node fid) p = [] := by
              unfold fragGroup
              rw [List.filter_eq_nil_iff]
              intro g hgp hpred
              simp only [Bool.and_eq_true, decide_eq_true_eq] at hpred
              obtain ⟨rep, hrep⟩ := hI4 g hgp hpred.1
              rw [hpred.2] at hrep
              exact hnok rep hrep
            refine ⟨?_, ?_, ?_, ?_, ?_, hI5, hI6⟩
            · intro k r1 r2 h1 h2
              rcases (insertHop_mem _ _ hops k r1).mp h1 with ⟨hk1, hr1⟩ | ho1
              · rcases (insertHop_mem _ _ hops k r2).mp h2 with ⟨hk2, hr2⟩ | ho2
                · rw [hr1, hr2]
                · rw [hk1] at ho2
                  exact absurd ho2 (hnok r2)
              · rcases (insertHop_mem _ _ hops k r2).mp h2 with ⟨hk2, hr2⟩ | ho2
                · rw [hk2] at ho1
                  exact absurd ho1 (hnok r1)
                · exact hI0 k r1 r2 ho1 ho2
            · intro k rep hm
              rcases (insertHop_mem _ _ hops k rep).mp hm with ⟨hk, hr⟩ | ho
              · refine ⟨by rw [hr]; exact horig, by rw [hr, hk], ?_, ?_⟩
                · rw [hr]
                  exact List.mem_append_right _ (List.mem_singleton.mpr rfl)
                · rw [fragGroup_append, hk]
                  rw [hgrp_nil]
                  have hone : fragGroup env origin (env.node fid) [fid] = [fid] := by
                    simp [fragGroup, horig]
                  rw [hone]
                  simp only [List.nil_append, List.map_cons, List.map_nil, List.sum_cons,
                    List.sum_nil, Nat.add_zero]
                  rw [hr]
                  exact hI3 fid (Or.inl hfid_p)
              · obtain ⟨h1, h2, h3, h4⟩ := hI1 k rep ho
                have hkne : k ≠ env.node fid := by
                  intro hc
                  rw [hc] at ho
                  exact hnok rep ho
                refine ⟨h1, h2, List.mem_append_left _ h3, ?_⟩
                rw [fragGroup_append]
                have hone : fragGroup env origin k [fid] = [] := by
                  simp [fragGroup, Ne.symm hkne]
                rw [hone, List.append_nil]
                exact h4
            · intro g hg hgo hgh
              rcases List.mem_append.mp hg with hgp | hgf
              · refine hI2 g hgp hgo ?_
                intro hc
                exact hgh ((insertHop_mem _ _ hops _ _).mpr (Or.inr hc))
              · have hgfid : g = fid := by simpa using hgf
                exfalso
                apply hgh
                apply (insertHop_mem _ _ hops _ _).mpr
                left
                rw [hgfid]
                exact ⟨rfl, rfl⟩
            · intro g hg
              rcases hg with hg | hg
              · exact hI3 g (Or.inl fun hc => hg (List.mem_append_left _ hc))
              · exact hI3 g (Or.inr hg)
            · intro g hg hgo
              rcases List.mem_append.mp hg with hgp | hgf
              · obtain ⟨rep, hrep⟩ := hI4 g hgp hgo
                exact ⟨rep, (insertHop_mem _ _ hops _ _).mpr (Or.inr hrep)⟩
              · have hgfid : g = fid := by simpa using hgf
                refine ⟨fid, (insertHop_mem _ _ hops _ _).mpr (Or.inl ?_)⟩
                rw [hgfid]
                exact ⟨rfl, rfl⟩
        | some rep =>
            have hrepmem : (env.node fid, rep) ∈ hops :=
              lookupHop_eq_some (env.node fid) rep hops hlook
            obtain ⟨hro, hrn, hrp, hrs⟩ := hI1 (env.node fid) rep hrepmem
            have hrep_ne : rep ≠ fid := fun hc => hfid_p (by rw [← hc]; exact hrp)
            have hffid : st.flow fid = st0.flow fid := hI3 fid (Or.inl hfid_p)
            have hunf : mergeGo env origin (fid :: rest) st hops =
                mergeGo env origin rest
                  { st with flow := fun g =>
                      if g = fid then
                        (if g = rep then st.flow g + st.flow fid else st.flow g) -
                          st.flow fid
                      else if g = rep then st.flow g + st.flow fid else st.flow g }
                  hops := by
              rw [mergeGo, if_pos horig, hlook]
            rw [hunf]
            apply ih (p ++ [fid]) _ hops hnd'
            have hF_fid :
                (if fid = fid then
                    (if fid = rep then st.flow fid + st.flow fid else st.flow fid) -
                      st.flow fid
                  else if fid = rep then st.flow fid + st.flow fid else st.flow fid) = 0 := by
              rw [if_pos rfl, if_neg (fun hc => hrep_ne hc.symm)]
              omega
            refine ⟨hI0, ?_, ?_, ?_, ?_, hI5, hI6⟩
            · intro k rep' hm
              obtain ⟨h1, h2, h3, h4⟩ := hI1 k rep' hm
              have hrep'_ne_fid : rep' ≠ fid := fun hc => hfid_p (by rw [← hc]; exact h3)
              by_cases hr : rep' = rep
              · have hk : k = env.node fid := by
                  rw [hr] at h2
                  rw [← h2, hrn]
                refine ⟨h1, h2, List.mem_append_left _ h3, ?_⟩
                dsimp only
                rw [if_neg hrep'_ne_fid, if_pos hr]
                rw [fragGroup_append, hk]
                have hone : fragGroup env origin (env.node fid) [fid] = [fid] := by
                  simp [fragGroup, horig]
                rw [hone, List.map_append]
                simp only [List.map_cons, List.map_nil, List.sum_append, List.sum_cons,
                  List.sum_nil, Nat.add_zero]
                rw [hr, hrs, ← hk, hffid]
              · have hkne : k ≠ env.node fid := by
                  intro hc
                  rw [hc] at hm
                  exact hr (hI0 (env.node fid) rep' rep hm hrepmem)
                refine ⟨h1, h2, List.mem_append_left _ h3, ?_⟩
                dsimp only
                rw [if_neg hrep'_ne_fid, if_neg hr]
                rw [fragGroup_append]
                have hone : fragGroup env origin k [fid] = [] := by
                  simp [fragGroup, Ne.symm hkne]
                rw [hone, List.append_nil]
                exact h4
            · intro g hg hgo hgh
              rcases List.mem_append.mp hg with hgp | hgf
              · have hg_ne_fid : g ≠ fid := fun hc => hfid_p (hc ▸ hgp)
                have hg_ne_rep : g ≠ rep := by
                  intro hc
                  apply hgh
                  rw [hc]
                  rw [show env.node rep = env.node fid from hrn]
                  exact hrepmem
                dsimp only
                rw [if_neg hg_ne_fid, if_neg hg_ne_rep]
                exact hI2 g hgp hgo hgh
              · have hgfid : g = fid := by simpa using hgf
                rw [hgfid]
                dsimp only
                exact hF_fid
            · intro g hg
              have hg_ne_fid : g ≠ fid := by
                rcases hg with hg | hg
                · exact fun hc => hg (hc ▸ List.mem_append_right _ (List.mem_singleton.mpr rfl))
                · exact fun hc => hg (hc ▸ horig)
              have hg_ne_rep : g ≠ rep := by
                rcases hg with hg | hg
                · exact fun hc => hg (hc ▸ List.mem_append_left _ hrp)
                · exact fun hc => hg (hc ▸ hro)
              dsimp only
              rw [if_neg hg_ne_fid, if_neg hg_ne_rep]
              refine hI3 g ?_
              rcases hg with hg | hg
              · exact Or.inl fun hc => hg (List.mem_append_left _ hc)
              · exact Or.inr hg
            · intro g hg hgo
              rcases List.mem_append.mp hg with hgp | hgf
              · exact hI4 g hgp hgo
              · have hgfid : g = fid := by simpa using hgf
                rw [hgfid]
                exact ⟨rep, hrepmem⟩
      · have hunf : mergeGo env origin (fid :: rest) st hops =
            mergeGo env origin rest st hops := by
          rw [mergeGo, if_neg horig]
        rw [hunf]
        apply ih (p ++ [fid]) st hops hnd'
        refine ⟨hI0, ?_, ?_, ?_, ?_, hI5, hI6⟩
        · intro k rep hm
          obtain ⟨h1, h2, h3, h4⟩ := hI1 k rep hm
          refine ⟨h1, h2, List.mem_append_left _ h3, ?_⟩
          rw [fragGroup_append]
          have hone : fragGroup env origin k [fid] = [] := by
            simp [fragGroup, horig]
          rw [hone, List.append_nil]
          exact h4
        · intro g hg hgo hgh
          rcases List.mem_append.mp hg with hgp | hgf
          · exact hI2 g hgp hgo hgh
          · have hgfid : g = fid := by simpa using hgf
            rw [hgfid] at hgo
            exact absurd hgo horig
        · intro g hg
          rcases hg with hg | hg
          · exact hI3 g (Or.inl fun hc => hg (List.mem_append_left _ hc))
          · exact hI3 g (Or.inr hg)
        · intro g hg hgo
          rcases List.mem_append.mp hg with hgp | hgf
          · exact hI4 g hgp hgo
          · have hgfid : g = fid := by simpa using hgf
            rw [hgfid] at hgo
            exact absurd hgo horig

theorem mergeFrags_inv (env : FragEnv) (origin : Nat) (st : CEState) (frags : List Nat)
    (hnd : frags.Nodup) :
    MergeInv env origin st frags (mergeFrags env origin frags st).1
      (mergeFrags env origin frags st).2 := by
  have hinit : MergeInv env origin st [] st [] := by
    refine ⟨?_, ?_, ?_, ?_, ?_, fun s => rfl, fun a b => rfl⟩
    · intro k r1 r2 h1 _
      simp at h1
    · intro k rep h
      simp at h
    · intro g hg
      simp at hg
    · intro g _
      rfl
    · intro g hg
      simp at hg
  have hmain := mergeGo_inv env origin st frags [] st [] (by simpa using hnd) hinit
  simpa [mergeFrags] using hmain

/-- C8: in the per-origin depth-first cycle search, a resolved node makes
every walk reaching it return immediately with no cycle and no state
change; expanding an unvisited node ends by marking it resolved exactly
when no cycle was found in its subtree and leaves it unvisited otherwise;
a merged child without flow is skipped by the child loop without any
state change; and the fragment merge groups that origin's parallel
fragments by next hop, summing each group's flow onto the single map
representative, zeroing the other fragments of the group and touching no
other flow, slot or edge (the MergeInv invariant). -/
theorem c8_cycle_search (env : FragEnv) (origin next_id fuel : Nat) (st : CEState) :
    (st.slot next_id = Slot.resolved →
      elimCyclesRec env origin (fuel + 1) st next_id = (false, st)) ∧
    (st.slot next_id = Slot.unvisited →
      (elimCyclesRec env origin (fuel + 1) st next_id).2.slot next_id =
        (if (elimCyclesRec env origin (fuel + 1) st next_id).1 then Slot.unvisited
          else Slot.resolved)) ∧
    (∀ (rec : CEState → Nat → Bool × CEState) (nid : Nat) (acc : Bool × CEState)
        (kc : Nat × Nat), acc.2.flow kc.2 = 0 → childStep env rec nid acc kc = acc) ∧
    ((env.nodePaths next_id).Nodup →
      MergeInv env origin st (env.nodePaths next_id)
        (mergeFrags env origin (env.nodePaths next_id) st).1
        (mergeFrags env origin (env.nodePaths next_id) st).2) := by
  refine ⟨?_, ?_, ?_, ?_⟩
  · intro h
    rw [elimCyclesRec, h]
  · intro h
    rw [elimCyclesRec, h]
    simp
  · intro rec nid acc kc h
    unfold childStep
    have hneg : ¬ 0 < acc.2.flow kc.2 := by omega
    rw [if_neg hneg]
  · intro hnd
    exact mergeFrags_inv env origin st (env.nodePaths next_id) hnd

theorem c8_witness :
    ((⟨fun _ => Slot.resolved, fun g => g * 2, fun _ _ => 0⟩ : CEState).slot 0 =
      Slot.resolved) ∧
    elimCyclesRec ⟨fun _ => 0, fun _ => 5, fun n => if n = 0 then [1, 2] else []⟩ 0 1
      ⟨fun _ => Slot.resolved, fun g => g * 2, fun _ _ => 0⟩ 0 =
      (false, ⟨fun _ => Slot.resolved, fun g => g * 2, fun _ _ => 0⟩) ∧
    (elimCyclesRec ⟨fun _ => 0, fun _ => 5, fun n => if n = 0 then [1, 2] else []⟩ 0 3
        ⟨fun _ => Slot.unvisited, fun g => g * 2, fun _ _ => 0⟩ 0).2.slot 0 =
      (if (elimCyclesRec ⟨fun _ => 0, fun _ => 5, fun n => if n = 0 then [1, 2] else []⟩ 0 3
          ⟨fun _ => Slot.unvisited, fun g => g * 2, fun _ _ => 0⟩ 0).1 then Slot.unvisited
        else Slot.resolved) ∧
    childStep ⟨fun _ => 0, fun _ => 5, fun n => if n = 0 then [1, 2] else []⟩
        (fun st2 _ => (false, st2)) 0
        (false, ⟨fun _ => Slot.unvisited, fun g => if g = 7 then 0 else 1, fun _ _ => 0⟩)
        (5, 7) =
      (false, ⟨fun _ => Slot.unvisited, fun g => if g = 7 then 0 else 1, fun _ _ => 0⟩) ∧
    MergeInv ⟨fun _ => 0, fun _ => 5, fun n => if n = 0 then [1, 2] else []⟩ 0
      ⟨fun _ => Slot.unvisited, fun g => g * 2, fun _ _ => 0⟩
      ((⟨fun _ => 0, fun _ => 5, fun n => if n = 0 then [1, 2] else []⟩ : FragEnv).nodePaths 0)
      (mergeFrags ⟨fun _ => 0, fun _ => 5, fun n => if n = 0 then [1, 2] else []⟩ 0
        ((⟨fun _ => 0, fun _ => 5, fun n => if n = 0 then [1, 2] else []⟩ : FragEnv).nodePaths 0)
        ⟨fun _ => Slot.unvisited, fun g => g * 2, fun _ _ => 0⟩).1
      (mergeFrags ⟨fun _ => 0, fun _ => 5, fun n => if n = 0 then [1, 2] else []⟩ 0
        ((⟨fun _ => 0, fun _ => 5, fun n => if n = 0 then [1, 2] else []⟩ : FragEnv).nodePaths 0)
        ⟨fun _ => Slot.unvisited, fun g => g * 2, fun _ _ => 0⟩).2 :=
  ⟨rfl,
    (c8_cycle_search ⟨fun _ => 0, fun _ => 5, fun n => if n = 0 then [1, 2] else []⟩ 0 0 0
      ⟨fun _ => Slot.resolved, fun g => g * 2, fun _ _ => 0⟩).1 rfl,
    (c8_cycle_search ⟨fun _ => 0, fun _ => 5, fun n => if n = 0 then [1, 2] else []⟩ 0 0 2
      ⟨fun _ => Slot.unvisited, fun g => g * 2, fun _ _ => 0⟩).2.1 rfl,
    (c8_cycle_search ⟨fun _ => 0, fun _ => 5, fun n => if n = 0 then [1, 2] else []⟩ 0 0 0
      ⟨fun _ => Slot.unvisited, fun g => g * 2, fun _ _ => 0⟩).2.2.1
      (fun st2 _ => (false, st2)) 0
      (false, ⟨fun _ => Slot.unvisited, fun g => if g = 7 then 0 else 1, fun _ _ => 0⟩)
      (5, 7) rfl,
    (c8_cycle_search ⟨fun _ => 0, fun _ => 5, fun n => if n = 0 then [1, 2] else []⟩ 0 0 0
      ⟨fun _ => Slot.unvisited, fun g => g * 2, fun _ _ => 0⟩).2.2.2 (by decide)⟩

theorem c1_witness :
    ((pass1Inner 2 (some 100) ⟨10, 10⟩ ⟨[⟨1, 1⟩], -3⟩ false).did_overload = true ↔
      (0 < (⟨10, 10⟩ : DemandEdge).unsat ∧
        (⟨10, 10⟩ : DemandEdge).unsat = (⟨10, 10⟩ : DemandEdge).demand ∧
        INT_MIN < (⟨[⟨1, 1⟩], -3⟩ : MPath).free_capacity ∧
        ((⟨[⟨1, 1⟩], -3⟩ : MPath).free_capacity ≤ 0 ∨
          (PushFlow 2 (some 100) ⟨10, 10⟩ ⟨[⟨1, 1⟩], -3⟩).1 = 0))) ∧
    ((pass1Inner 2 (some 100) ⟨10, 10⟩ ⟨[⟨1, 1⟩], -3⟩ false).did_normal = true ↔
      (0 < (⟨10, 10⟩ : DemandEdge).unsat ∧
        0 < (⟨[⟨1, 1⟩], -3⟩ : MPath).free_capacity)) :=
  c1_pass1_overload_rule 2 (some 100) ⟨10, 10⟩ ⟨[⟨1, 1⟩], -3⟩ false
